import Mathlib

/-!
Verification of the dynamic-batching scheduler of an inference server
(`src/core/dynamic_batch_scheduler.h`, `src/core/backend_context.h`).

The repository ships only the declarations of `DynamicBatchScheduler`,
`BackendContext` and `BackendResponder`; the bodies live in translation
units that are not part of the repository snapshot.  Every definition
below is therefore a shallow embedding modelled from the specification's
description of those operations (queueing, priority handling, batch
formation, dispatch decision, response ordering, data-plane gather and
scatter), and the theorems settle the specification's claims against
that model.
-/

namespace DynBatch

/-- Memory kinds of a tensor buffer, mirroring `TRITONSERVER_MemoryType`. -/
inductive MemType where
  | cpu
  | cpuPinned
  | gpu
deriving DecidableEq, Repr

/-- A named input tensor carried by a request: name, payload byte count,
shape, and (for shape tensors) the contained values. -/
structure TensorInput where
  name : String
  byteSize : Nat
  shape : List Int
  contents : List Int
deriving DecidableEq, Repr

/-- An inference request as queued by the scheduler.  `priority = 0`
means the request did not specify a priority.  Times are in
microseconds. -/
structure Request where
  id : Nat
  priority : Nat
  enqueueTime : Nat
  batchDim : Nat
  inputs : List TensorInput
deriving DecidableEq, Repr

/-- Error kinds surfaced through response sinks. -/
inductive ErrKind where
  | validationError
  | queueFull
  | timeout
  | executorError
  | shutdown
deriving DecidableEq, Repr

/-- Which component invoked the response sink. -/
inductive SinkSource where
  | scheduler
  | runner
deriving DecidableEq, Repr

/-- One invocation of a request's response sink: the request id, the
error delivered (`none` on normal completion) and the invoking
component. -/
structure SinkEvent where
  reqId : Nat
  err : Option ErrKind
  source : SinkSource
deriving DecidableEq, Repr

/-- Rejection rule applied when a queue level is at capacity. -/
inductive FullAction where
  | rejectNew
  | dropOldest
deriving DecidableEq, Repr

/-- Modelled from the spec: the default rejection rule of a queue level
(`default: reject newest`). -/
def defaultFullAction : FullAction := FullAction.rejectNew

/-- Per-level queue policy (`ModelQueuePolicy`): maximum depth
(0 = unbounded), rejection rule at capacity, and default timeout in
microseconds (0 = none). -/
structure QueuePolicy where
  maxQueueSize : Nat
  fullAction : FullAction
  timeoutUs : Nat
deriving DecidableEq, Repr

/-- Modelled from the spec: a queue policy built without an explicit
rejection rule uses the default rule. -/
def mkQueuePolicy (maxSize timeout : Nat) : QueuePolicy :=
  ⟨maxSize, defaultFullAction, timeout⟩

/-- Result of pushing one request into a queue level. -/
inductive PushOutcome where
  | accepted
  | rejectedNew
  | droppedOldest (dropped : Request)
deriving DecidableEq, Repr

/-- A level is full when its bounded capacity has been reached. -/
def levelFull (pol : QueuePolicy) (q : List Request) : Bool :=
  pol.maxQueueSize != 0 && pol.maxQueueSize ≤ q.length

/-- Modelled from the spec: `PriorityQueue` push of one request into a
single level (the body of `PriorityQueue::Enqueue` is not in the
snapshot).  At capacity the level's rejection rule applies: either the
new request is rejected, or the oldest entry is dropped; otherwise the
request is appended at the back. -/
def pushLevel (pol : QueuePolicy) (q : List Request) (r : Request) :
    List Request × PushOutcome :=
  if levelFull pol q then
    match pol.fullAction with
    | FullAction.rejectNew => (q, PushOutcome.rejectedNew)
    | FullAction.dropOldest =>
      match q with
      | [] => (q ++ [r], PushOutcome.accepted)
      | old :: rest => (rest ++ [r], PushOutcome.droppedOldest old)
  else (q ++ [r], PushOutcome.accepted)

/-- Sink invocations caused by a push: a rejected new request is
answered with a queue-full error, a dropped oldest entry with a timeout
error, both by the scheduler. -/
def pushEvents (r : Request) : PushOutcome → List SinkEvent
  | PushOutcome.accepted => []
  | PushOutcome.rejectedNew =>
      [⟨r.id, some ErrKind.queueFull, SinkSource.scheduler⟩]
  | PushOutcome.droppedOldest old =>
      [⟨old.id, some ErrKind.timeout, SinkSource.scheduler⟩]

/-- Modelled from the spec: the queue level chosen for a request given
`P` priority levels — the request's priority clamped into `[1, P]`, the
level `⌊P/2⌋ + 1` when the priority is unspecified, and the single
level 1 when `P = 0`. -/
def targetLevel (P : Nat) (prio : Nat) : Nat :=
  if P = 0 then 1
  else if prio = 0 then P / 2 + 1
  else max 1 (min prio P)

/-- The priority-queue set holds `max P 1` levels, highest priority
first; all start empty. -/
def emptyQueues (P : Nat) : List (List Request) :=
  List.replicate (max P 1) []

/-- Modelled from the spec: scheduler-level push — select the target
level, apply the level push, and record the caused sink events. -/
def schedPush (P : Nat) (pols : Nat → QueuePolicy)
    (qs : List (List Request)) (r : Request) :
    List (List Request) × List SinkEvent :=
  let lvl := targetLevel P r.priority
  let res := pushLevel (pols lvl) (qs.getD (lvl - 1) []) r
  (qs.set (lvl - 1) res.1, pushEvents r res.2)

/-- Immutable configuration of one dynamic-batching scheduler, as passed
to `DynamicBatchScheduler::Create`. -/
structure SchedConfig where
  maxBatchSize : Nat
  preferredBatchSizes : List Nat
  maxQueueDelayUs : Nat
  enforceEqualShapeTensors : List (String × Bool)
  priorityLevels : Nat
  policies : Nat → QueuePolicy
  schema : List (String × Nat)

/-- Find a request's input tensor by name. -/
def lookupInput (r : Request) (n : String) : Option TensorInput :=
  r.inputs.find? (fun t => t.name == n)

/-- Two tensors are batch-compatible when their shapes agree, and for a
shape tensor the contained values agree as well. -/
def tensorMatches (isShape : Bool) (t1 t2 : TensorInput) : Bool :=
  t1.shape == t2.shape && (!isShape || t1.contents == t2.contents)

/-- Modelled from the spec: the `required_equal_inputs_` fingerprint
check of the batch former — a candidate matches the batch when every
tensor listed in `enforce_equal_shape_tensors` agrees with the first
request of the batch. -/
def requestMatches (enforce : List (String × Bool)) (first r : Request) :
    Bool :=
  enforce.all fun nf =>
    match lookupInput first nf.1, lookupInput r nf.1 with
    | some t1, some t2 => tensorMatches nf.2 t1 t2
    | _, _ => false

/-- Effective batch size of a candidate: the sum of the per-request
batch dimensions. -/
def effectiveBatchSize (b : List Request) : Nat :=
  (b.map Request.batchDim).sum

/-- Modelled from the spec: candidate extension of the batch former
(`GetDynamicBatch`, whose body is not in the snapshot).  Walking the
cursor, a candidate is added while it keeps the effective batch size
within `max_batch_size` and its listed tensors match the batch
fingerprint; the first violation stops extension.  Returns how many
further requests join the batch. -/
def extendCount (cfg : SchedConfig) (first : Request) :
    Nat → List Request → Nat
  | _, [] => 0
  | eff, r :: rest =>
    if eff + r.batchDim ≤ cfg.maxBatchSize ∧
        requestMatches cfg.enforceEqualShapeTensors first r = true then
      extendCount cfg first (eff + r.batchDim) rest + 1
    else 0

/-- Number of requests the former takes from the front of the pending
cursor: with batching disabled every request is its own batch, otherwise
the head plus the extension count. -/
def formBatchCount (cfg : SchedConfig) : List Request → Nat
  | [] => 0
  | r :: rest =>
    if cfg.maxBatchSize = 0 then 1
    else if r.batchDim ≤ cfg.maxBatchSize then
      extendCount cfg r r.batchDim rest + 1
    else 0

/-- The batch the former selects: a prefix of the pending cursor. -/
def formBatch (cfg : SchedConfig) (pending : List Request) : List Request :=
  pending.take (formBatchCount cfg pending)

/-- Outcome of one former pass: dispatch a batch of the first `count`
pending requests, or wait for at most `hintUs` microseconds. -/
inductive Decision where
  | dispatch (count : Nat)
  | wait (hintUs : Nat)
deriving DecidableEq, Repr

/-- Modelled from the spec: the dispatch decision of `GetDynamicBatch` —
dispatch when the candidate size reaches a preferred batch size or
`max_batch_size` or the oldest request has waited `max_queue_delay`,
otherwise report the remaining delay before the oldest request's
dispatch deadline as a wait hint. -/
def getDynamicBatch (cfg : SchedConfig) (now : Nat) :
    List Request → Option Decision
  | [] => none
  | oldest :: rest =>
    let cnt := formBatchCount cfg (oldest :: rest)
    let s := effectiveBatchSize ((oldest :: rest).take cnt)
    if s ∈ cfg.preferredBatchSizes then some (Decision.dispatch cnt)
    else if s = cfg.maxBatchSize then some (Decision.dispatch cnt)
    else if oldest.enqueueTime + cfg.maxQueueDelayUs ≤ now then
      some (Decision.dispatch cnt)
    else some (Decision.wait (oldest.enqueueTime + cfg.maxQueueDelayUs - now))

/-- Modelled from the spec: the cursor of the priority-queue set —
pending requests in priority-then-FIFO order, levels high priority
first. -/
def cursor (qs : List (List Request)) : List Request := qs.flatten

/-- Number of requests in the levels strictly before level index `l`,
i.e. the cursor position where level `l` starts. -/
def levelOffset {α : Type} (L : List (List α)) (l : Nat) : Nat :=
  ((L.take l).map List.length).sum

/-- Cursor position of the `i`-th request of level index `l`. -/
def cursorPos (qs : List (List Request)) (l i : Nat) : Nat :=
  levelOffset qs l + i

/-- The index of the batch containing cursor position `p`, for batches
of the given sizes popped in order from the front of the queue. -/
def batchOfPos : List Nat → Nat → Nat
  | [], _ => 0
  | n :: rest, p => if p < n then 0 else batchOfPos rest (p - n) + 1

/-- Modelled from the spec: the runner loop repeatedly pops the batch
the former selects from the front of the pending cursor (`pop_front`
removes the first `n` requests in cursor order); the fuel argument
bounds the number of iterations by the queue length. -/
def drainGo (cfg : SchedConfig) : Nat → List Request → List (List Request)
  | 0, _ => []
  | _ + 1, [] => []
  | fuel + 1, r :: rest =>
    ((r :: rest).take (max 1 (formBatchCount cfg (r :: rest)))) ::
      drainGo cfg fuel
        ((r :: rest).drop (max 1 (formBatchCount cfg (r :: rest))))

/-- The sequence of batches dispatched when draining a pending queue. -/
def drainBatches (cfg : SchedConfig) (pending : List Request) :
    List (List Request) :=
  drainGo cfg pending.length pending

/-- Modelled from the spec: request validation performed by `Enqueue` —
every schema input must be present with the declared byte count, and the
request may carry no unknown input. -/
def validRequest (schema : List (String × Nat)) (r : Request) : Bool :=
  schema.all
    (fun s => r.inputs.any fun t => t.name == s.1 && t.byteSize == s.2) &&
  r.inputs.all (fun t => schema.any fun s => s.1 == t.name)

/-- Modelled from the spec: `DynamicBatchScheduler::Enqueue` — validate,
then push into the priority queue set; a validation failure is answered
immediately by the scheduler and the request never enters the queue. -/
def enqueue (cfg : SchedConfig) (qs : List (List Request)) (r : Request) :
    List (List Request) × List SinkEvent :=
  if validRequest cfg.schema r then
    schedPush cfg.priorityLevels cfg.policies qs r
  else (qs, [⟨r.id, some ErrKind.validationError, SinkSource.scheduler⟩])

/-- One step of feeding the scheduler: enqueue a request and append the
sink events it caused. -/
def enqueueStep (cfg : SchedConfig)
    (acc : List (List Request) × List SinkEvent) (r : Request) :
    List (List Request) × List SinkEvent :=
  let res := enqueue cfg acc.1 r
  (res.1, acc.2 ++ res.2)

/-- Feed a sequence of incoming requests into an initially empty
scheduler. -/
def enqueueAll (cfg : SchedConfig) (incoming : List Request) :
    List (List Request) × List SinkEvent :=
  incoming.foldl (enqueueStep cfg) (emptyQueues cfg.priorityLevels, [])

/-- Modelled from the spec: `expire_timed_out` on one level — walk from
the head, answer each expired request with a timeout error, stop at the
first live head. -/
def expireLevel (now timeout : Nat) :
    List Request → List Request × List SinkEvent
  | [] => ([], [])
  | r :: rest =>
    if timeout ≠ 0 ∧ r.enqueueTime + timeout < now then
      let res := expireLevel now timeout rest
      (res.1, ⟨r.id, some ErrKind.timeout, SinkSource.scheduler⟩ :: res.2)
    else (r :: rest, [])

/-- Timeout sweep across all levels, using each level's policy. -/
def expireAllGo (cfg : SchedConfig) (now : Nat) :
    Nat → List (List Request) → List (List Request) × List SinkEvent
  | _, [] => ([], [])
  | lvl, q :: rest =>
    let res := expireLevel now (cfg.policies lvl).timeoutUs q
    let res2 := expireAllGo cfg now (lvl + 1) rest
    (res.1 :: res2.1, res.2 ++ res2.2)

/-- Timeout sweep starting at level 1. -/
def expireAll (cfg : SchedConfig) (now : Nat) (qs : List (List Request)) :
    List (List Request) × List SinkEvent :=
  expireAllGo cfg now 1 qs

/-- Modelled from the spec: the runner completes every dispatched batch,
invoking each dispatched request's sink exactly once with its
response. -/
def dispatchEvents (cfg : SchedConfig) (qs : List (List Request)) :
    List SinkEvent :=
  ((drainBatches cfg (cursor qs)).flatten).map
    (fun r => ⟨r.id, none, SinkSource.runner⟩)

/-- The complete scheduler run on a list of incoming requests: enqueue
all (with validation and queue policies), sweep timeouts at `now`, then
drain the remaining queue through the runner. The result is the list of
all sink invocations. -/
def runScheduler (cfg : SchedConfig) (now : Nat)
    (incoming : List Request) : List SinkEvent :=
  let e := enqueueAll cfg incoming
  let x := expireAll cfg now e.1
  e.2 ++ x.2 ++ dispatchEvents cfg x.1

/-- Number of sink invocations for request id `id`. -/
def countEv (id : Nat) (evs : List SinkEvent) : Nat :=
  evs.countP (fun e => e.reqId == id)

/-- Number of requests with id `id` in a request list. -/
def countReq (id : Nat) (rs : List Request) : Nat :=
  rs.countP (fun r => r.id == id)

/-- Number of requests with id `id` across all queue levels. -/
def countQs (id : Nat) (qs : List (List Request)) : Nat :=
  (qs.map (countReq id)).sum

/-- State of the response orderer: the FIFO of completion ids issued at
dispatch and not yet delivered, the set of completion ids whose batch
has finished, and the ids already delivered, in delivery order. -/
structure OrdererState where
  idQueue : List Nat
  ready : List Nat
  emitted : List Nat
deriving DecidableEq, Repr

/-- Modelled from the spec: the orderer's `emit_ready` walk — flush
responses from the head of the completion-id FIFO as long as the head
slot is filled; return the flushed ids and the remaining FIFO. -/
def emitReady (ready : List Nat) : List Nat → List Nat × List Nat
  | [] => ([], [])
  | c :: rest =>
    if c ∈ ready then
      let res := emitReady ready rest
      (c :: res.1, res.2)
    else ([], c :: rest)

/-- Modelled from the spec: `FinalizePayloads` with ordering on — mark
completion id `c` ready, then flush every deliverable head. -/
def ordererStep (s : OrdererState) (c : Nat) : OrdererState :=
  let rd := c :: s.ready
  let res := emitReady rd s.idQueue
  ⟨res.2, rd, s.emitted ++ res.1⟩

/-- Initial orderer state for `n` dispatched batches: completion ids
`0, …, n-1` in dispatch (= dequeue) order, nothing ready or emitted. -/
def initOrderer (n : Nat) : OrdererState := ⟨List.range n, [], []⟩

/-- Run the orderer over a sequence of batch-completion events. -/
def runOrderer (n : Nat) (events : List Nat) : OrdererState :=
  events.foldl ordererStep (initOrderer n)

/-- Modelled from the spec: `FinalizePayloads` with ordering off emits
each batch's responses immediately on completion, so the emission order
is the completion order. -/
def finalizeDirect (completions : List Nat) : List Nat := completions

/-- Modelled from the spec: whether a buffer copy between the given
memory kinds is issued as `cudaMemcpyAsync` — a copy with device memory
on either side. -/
def copyUsesCuda (src dst : MemType) : Bool :=
  src == MemType.gpu || dst == MemType.gpu

/-- The per-request data seen by the gather helper: the byte count of
the request's input content and the memory kind it lives in. -/
structure ReqInput where
  actualByteSize : Nat
  srcMem : MemType
deriving DecidableEq, Repr

/-- One copy issued into the contiguous input buffer: which request it
serves, the destination offset, the byte count, and the source memory
kind. -/
structure CopyOp where
  reqIndex : Nat
  offset : Nat
  size : Nat
  srcMem : MemType
deriving DecidableEq, Repr

/-- Result of the gather: the copies issued, the indices of requests
answered with an error response, and whether `cudaMemcpyAsync` was
called. -/
structure GatherResult where
  copies : List CopyOp
  errors : List Nat
  cudaUsed : Bool
deriving DecidableEq, Repr

/-- Modelled from the spec: the request loop of
`BackendContext::SetInputBuffer` — for each request, on byte-size
mismatch send an error response for that request and move to the next
offset; otherwise copy the content into the buffer at the running
offset, recording whether the copy used `cudaMemcpyAsync`. -/
def gatherGo (dstMem : MemType) :
    Nat → Nat → List (Nat × ReqInput) → GatherResult
  | _, _, [] => ⟨[], [], false⟩
  | i, off, (exp, inp) :: rest =>
    let r := gatherGo dstMem (i + 1) (off + exp) rest
    if inp.actualByteSize = exp then
      ⟨⟨i, off, exp, inp.srcMem⟩ :: r.copies, r.errors,
        (copyUsesCuda inp.srcMem dstMem || r.cudaUsed)⟩
    else ⟨r.copies, i :: r.errors, r.cudaUsed⟩

/-- Modelled from the spec: `BackendContext::SetInputBuffer` packing the
batched input of the given requests into one contiguous buffer in
`dstMem`. -/
def setInputBuffer (dstMem : MemType) (expected : List Nat)
    (inputs : List ReqInput) : GatherResult :=
  gatherGo dstMem 0 0 (expected.zip inputs)

/-- How many of the issued copies were `cudaMemcpyAsync` calls. -/
def asyncCopyCount (dstMem : MemType) (res : GatherResult) : Nat :=
  (res.copies.filter (fun c => copyUsesCuda c.srcMem dstMem)).length

/-- State of a `BackendResponder`: the `need_sync_` flag and the number
of `cudaMemcpyAsync` calls issued while scattering outputs. -/
structure ResponderState where
  needSync : Bool
  asyncCopies : Nat
deriving DecidableEq, Repr

/-- The responder starts with no pending synchronisation. -/
def initResponder : ResponderState := ⟨false, 0⟩

/-- Modelled from the spec: `BackendResponder::ProcessTensor` — scatter
one output tensor living in `srcMem` into each request's destination
memory, accumulating whether any copy was issued asynchronously. -/
def processTensor (srcMem : MemType) (dsts : List MemType)
    (st : ResponderState) : ResponderState :=
  dsts.foldl
    (fun s dst =>
      ⟨s.needSync || copyUsesCuda srcMem dst,
        s.asyncCopies + (if copyUsesCuda srcMem dst then 1 else 0)⟩)
    st

/-- Modelled from the spec: `BackendResponder::Finalize` — report
whether the caller must synchronise the transfer stream. -/
def finalize (st : ResponderState) : Bool := st.needSync

/-- Process a batch of output tensors, each given by its source memory
kind and the destination memory kinds of the per-request slices. -/
def runResponder (outputs : List (MemType × List MemType)) :
    ResponderState :=
  outputs.foldl (fun st o => processTensor o.1 o.2 st) initResponder

theorem targetLevel_ge_one (P prio : Nat) : 1 ≤ targetLevel P prio := by
  unfold targetLevel
  split
  · exact Nat.le_refl 1
  · split
    · exact Nat.le_add_left 1 (P / 2)
    · exact Nat.le_max_left 1 _

theorem targetLevel_le (P prio : Nat) (hP : 1 ≤ P) :
    targetLevel P prio ≤ P := by
  unfold targetLevel
  have hP0 : P ≠ 0 := Nat.one_le_iff_ne_zero.mp hP
  simp only [hP0, if_false]
  split
  · have : P / 2 < P := Nat.div_lt_self (Nat.lt_of_lt_of_le Nat.zero_lt_one hP) Nat.one_lt_two
    omega
  · have h1 : min prio P ≤ P := Nat.min_le_right prio P
    omega

theorem extendCount_effSize (cfg : SchedConfig) (first : Request) :
    ∀ (l : List Request) (eff : Nat), eff ≤ cfg.maxBatchSize →
      eff + effectiveBatchSize (l.take (extendCount cfg first eff l)) ≤
        cfg.maxBatchSize
  | [], eff, h => by
      simp [extendCount, effectiveBatchSize, h]
  | r :: rest, eff, h => by
      unfold extendCount
      split
      · rename_i hc
        have ih := extendCount_effSize cfg first rest (eff + r.batchDim) hc.1
        simp only [List.take_succ_cons, effectiveBatchSize, List.map_cons,
          List.sum_cons] at *
        omega
      · simp [effectiveBatchSize, h]

theorem length_le_effSize (b : List Request)
    (h : ∀ r ∈ b, 1 ≤ r.batchDim) : b.length ≤ effectiveBatchSize b := by
  induction b with
  | nil => simp [effectiveBatchSize]
  | cons r rest ih =>
      have h1 : 1 ≤ r.batchDim := h r (List.mem_cons_self r rest)
      have h2 := ih (fun x hx => h x (List.mem_cons_of_mem r hx))
      simp only [effectiveBatchSize, List.map_cons, List.sum_cons,
        List.length_cons] at *
      omega

theorem formBatch_effSize (cfg : SchedConfig) (pending : List Request)
    (hmax : 1 ≤ cfg.maxBatchSize) :
    effectiveBatchSize (formBatch cfg pending) ≤ cfg.maxBatchSize := by
  cases pending with
  | nil => simp [formBatch, formBatchCount, effectiveBatchSize]
  | cons r rest =>
      unfold formBatch formBatchCount
      have hm0 : cfg.maxBatchSize ≠ 0 := Nat.one_le_iff_ne_zero.mp hmax
      simp only [hm0, if_false]
      split
      · rename_i hr
        have := extendCount_effSize cfg r rest r.batchDim hr
        simp only [List.take_succ_cons, effectiveBatchSize, List.map_cons,
          List.sum_cons] at *
        omega
      · simp [effectiveBatchSize]

/-- Claim C2: every batch the former dispatches has at most
`max_batch_size` requests and a total batch dimension of at most
`max_batch_size`, and during candidate extension a candidate that would
push the effective batch size beyond `max_batch_size` is rejected
(extension stops there). -/
theorem claim_C2_batch_size_bound (cfg : SchedConfig)
    (pending : List Request) (hmax : 1 ≤ cfg.maxBatchSize)
    (hdim : ∀ r ∈ pending, 1 ≤ r.batchDim) :
    effectiveBatchSize (formBatch cfg pending) ≤ cfg.maxBatchSize ∧
    (formBatch cfg pending).length ≤ cfg.maxBatchSize ∧
    (∀ (first : Request) (eff : Nat) (r : Request) (rest : List Request),
      cfg.maxBatchSize < eff + r.batchDim →
      extendCount cfg first eff (r :: rest) = 0) := by
  have heff := formBatch_effSize cfg pending hmax
  refine ⟨heff, ?_, ?_⟩
  · have hsub : ∀ r ∈ formBatch cfg pending, 1 ≤ r.batchDim := by
      intro r hr
      exact hdim r (List.take_subset _ _ hr)
    exact Nat.le_trans (length_le_effSize _ hsub) heff
  · intro first eff r rest hlt
    unfold extendCount
    have : ¬(eff + r.batchDim ≤ cfg.maxBatchSize ∧
        requestMatches cfg.enforceEqualShapeTensors first r = true) := by
      intro hc
      omega
    simp [this]

/-- Concrete witness for claim C2: three requests of batch dimension 2
against `max_batch_size = 4` — the former takes only the first two. -/
theorem claim_C2_batch_size_bound_witness :
    effectiveBatchSize (formBatch ⟨4, [], 0, [], 0, fun _ => mkQueuePolicy 0 0, []⟩
      [⟨1, 0, 0, 2, []⟩, ⟨2, 0, 0, 2, []⟩, ⟨3, 0, 0, 2, []⟩]) ≤ 4 ∧
    (formBatch ⟨4, [], 0, [], 0, fun _ => mkQueuePolicy 0 0, []⟩
      [⟨1, 0, 0, 2, []⟩, ⟨2, 0, 0, 2, []⟩, ⟨3, 0, 0, 2, []⟩]).length ≤ 4 ∧
    (∀ (first : Request) (eff : Nat) (r : Request) (rest : List Request),
      (⟨4, [], 0, [], 0, fun _ => mkQueuePolicy 0 0, []⟩ : SchedConfig).maxBatchSize <
        eff + r.batchDim →
      extendCount ⟨4, [], 0, [], 0, fun _ => mkQueuePolicy 0 0, []⟩ first eff
        (r :: rest) = 0) :=
  claim_C2_batch_size_bound ⟨4, [], 0, [], 0, fun _ => mkQueuePolicy 0 0, []⟩
    [⟨1, 0, 0, 2, []⟩, ⟨2, 0, 0, 2, []⟩, ⟨3, 0, 0, 2, []⟩]
    (by decide) (by decide)

/-- Claim C3: for a non-empty batch candidate of current effective size
`s`, the former dispatches immediately if and only if `s` equals a
preferred batch size, or `s` equals `max_batch_size`, or the oldest
queued request's time in queue has reached `max_queue_delay`; otherwise
it does not dispatch and returns a wait hint equal to the remaining
delay before the oldest request's dispatch deadline. -/
theorem claim_C3_dispatch_decision (cfg : SchedConfig) (now : Nat)
    (oldest : Request) (rest : List Request) (s : Nat)
    (hs : s = effectiveBatchSize (formBatch cfg (oldest :: rest))) :
    ((∃ n, getDynamicBatch cfg now (oldest :: rest) =
        some (Decision.dispatch n)) ↔
      (s ∈ cfg.preferredBatchSizes ∨ s = cfg.maxBatchSize ∨
        oldest.enqueueTime + cfg.maxQueueDelayUs ≤ now)) ∧
    (¬(s ∈ cfg.preferredBatchSizes ∨ s = cfg.maxBatchSize ∨
        oldest.enqueueTime + cfg.maxQueueDelayUs ≤ now) →
      getDynamicBatch cfg now (oldest :: rest) =
        some (Decision.wait (oldest.enqueueTime + cfg.maxQueueDelayUs - now))) := by
  subst hs
  unfold getDynamicBatch formBatch
  by_cases h1 :
      effectiveBatchSize ((oldest :: rest).take (formBatchCount cfg (oldest :: rest))) ∈
        cfg.preferredBatchSizes
  · simp [h1]
  · by_cases h2 :
        effectiveBatchSize ((oldest :: rest).take (formBatchCount cfg (oldest :: rest))) =
          cfg.maxBatchSize
    · simp [h1, h2]
    · by_cases h3 : oldest.enqueueTime + cfg.maxQueueDelayUs ≤ now
      · simp [h1, h2, h3]
      · simp [h1, h2, h3]

/-- Concrete witness for claim C3: one queued request of batch
dimension 1 with preferred sizes `{4}`, well before its deadline — the
former returns the remaining delay as a wait hint. -/
theorem claim_C3_dispatch_decision_witness :
    ((∃ n, getDynamicBatch ⟨8, [4], 100, [], 0, fun _ => mkQueuePolicy 0 0, []⟩ 30
        [⟨1, 0, 10, 1, []⟩] = some (Decision.dispatch n)) ↔
      ((1 : Nat) ∈ [4] ∨ (1 : Nat) = 8 ∨ (10 : Nat) + 100 ≤ 30)) ∧
    (¬((1 : Nat) ∈ [4] ∨ (1 : Nat) = 8 ∨ (10 : Nat) + 100 ≤ 30) →
      getDynamicBatch ⟨8, [4], 100, [], 0, fun _ => mkQueuePolicy 0 0, []⟩ 30
        [⟨1, 0, 10, 1, []⟩] = some (Decision.wait (10 + 100 - 30))) := by
  have h := claim_C3_dispatch_decision
    ⟨8, [4], 100, [], 0, fun _ => mkQueuePolicy 0 0, []⟩ 30
    ⟨1, 0, 10, 1, []⟩ [] 1 (by rfl)
  exact h

theorem requestMatches_spec (enforce : List (String × Bool))
    (first r : Request) (h : requestMatches enforce first r = true)
    (nf : String × Bool) (hnf : nf ∈ enforce) :
    ∃ t1 t2, lookupInput first nf.1 = some t1 ∧
      lookupInput r nf.1 = some t2 ∧ t1.shape = t2.shape ∧
      (nf.2 = true → t1.contents = t2.contents) := by
  unfold requestMatches at h
  have hp := List.all_eq_true.mp h nf hnf
  cases h1 : lookupInput first nf.1 with
  | none => rw [h1] at hp; simp at hp
  | some t1 =>
      cases h2 : lookupInput r nf.1 with
      | none => rw [h1, h2] at hp; simp at hp
      | some t2 =>
          rw [h1, h2] at hp
          simp only [tensorMatches, Bool.and_eq_true, beq_iff_eq,
            Bool.or_eq_true, Bool.not_eq_true'] at hp
          refine ⟨t1, t2, rfl, rfl, hp.1, ?_⟩
          intro hflag
          rcases hp.2 with hf | hc
          · rw [hflag] at hf; exact absurd hf (by simp)
          · exact hc

theorem requestMatches_self (enforce : List (String × Bool)) (r : Request)
    (h : ∀ nf ∈ enforce, (lookupInput r nf.1).isSome) :
    requestMatches enforce r r = true := by
  unfold requestMatches
  refine List.all_eq_true.mpr ?_
  intro nf hnf
  cases h1 : lookupInput r nf.1 with
  | none =>
      have hs := h nf hnf
      rw [h1] at hs
      simp at hs
  | some t =>
      simp [tensorMatches]

theorem extendCount_matches (cfg : SchedConfig) (first : Request) :
    ∀ (l : List Request) (eff : Nat) (r : Request),
      r ∈ l.take (extendCount cfg first eff l) →
      requestMatches cfg.enforceEqualShapeTensors first r = true
  | [], _, _, hr => by simp [extendCount] at hr
  | x :: rest, eff, r, hr => by
      unfold extendCount at hr
      split at hr
      · rename_i hc
        rw [List.take_succ_cons] at hr
        cases List.mem_cons.mp hr with
        | inl he => rw [he]; exact hc.2
        | inr hm => exact extendCount_matches cfg first rest (eff + x.batchDim) r hm
      · simp at hr

theorem formBatch_matches (cfg : SchedConfig) (hd : Request)
    (tl : List Request)
    (hpres : ∀ nf ∈ cfg.enforceEqualShapeTensors,
      (lookupInput hd nf.1).isSome) :
    ∀ r ∈ formBatch cfg (hd :: tl),
      requestMatches cfg.enforceEqualShapeTensors hd r = true := by
  intro r hr
  unfold formBatch at hr
  by_cases h0 : cfg.maxBatchSize = 0
  · simp [formBatchCount, h0] at hr
    rw [hr]
    exact requestMatches_self _ hd hpres
  · by_cases h1 : hd.batchDim ≤ cfg.maxBatchSize
    · simp only [formBatchCount, h0, if_false, h1, if_true,
        List.take_succ_cons] at hr
      cases List.mem_cons.mp hr with
      | inl he => rw [he]; exact requestMatches_self _ hd hpres
      | inr hm => exact extendCount_matches cfg hd tl hd.batchDim r hm
    · simp [formBatchCount, h0, h1] at hr

/-- Claim C4: when `enforce_equal_shape_tensors` is non-empty, all
requests in a dispatched batch agree on the listed tensors' shapes (and
on their values for tensors flagged as shape tensors); the batch is a
prefix of the pending queue, so a candidate whose listed tensors
mismatch the batch fingerprint stops extension and remains queued for a
later batch rather than being dropped or dispatched. -/
theorem claim_C4_shape_equality (cfg : SchedConfig)
    (pending : List Request)
    (henf : cfg.enforceEqualShapeTensors ≠ [])
    (hpres : ∀ r ∈ pending, ∀ nf ∈ cfg.enforceEqualShapeTensors,
      (lookupInput r nf.1).isSome) :
    (formBatch cfg pending ++ pending.drop (formBatchCount cfg pending) =
      pending) ∧
    (∀ r1 ∈ formBatch cfg pending, ∀ r2 ∈ formBatch cfg pending,
      ∀ nf ∈ cfg.enforceEqualShapeTensors,
      ∃ t1 t2, lookupInput r1 nf.1 = some t1 ∧
        lookupInput r2 nf.1 = some t2 ∧ t1.shape = t2.shape ∧
        (nf.2 = true → t1.contents = t2.contents)) ∧
    (∀ (first : Request) (eff : Nat) (r : Request) (rest : List Request),
      requestMatches cfg.enforceEqualShapeTensors first r = false →
      extendCount cfg first eff (r :: rest) = 0) := by
  refine ⟨List.take_append_drop _ _, ?_, ?_⟩
  · intro r1 hr1 r2 hr2 nf hnf
    cases pending with
    | nil => simp [formBatch, formBatchCount] at hr1
    | cons hd tl =>
        have hphd : ∀ nf ∈ cfg.enforceEqualShapeTensors,
            (lookupInput hd nf.1).isSome :=
          hpres hd (List.mem_cons_self hd tl)
        have hm1 := formBatch_matches cfg hd tl hphd r1 hr1
        have hm2 := formBatch_matches cfg hd tl hphd r2 hr2
        obtain ⟨u1, v1, hu1, hv1, hs1, hc1⟩ :=
          requestMatches_spec _ _ _ hm1 nf hnf
        obtain ⟨u2, v2, hu2, hv2, hs2, hc2⟩ :=
          requestMatches_spec _ _ _ hm2 nf hnf
        have hu : u1 = u2 := by
          rw [hu1] at hu2
          exact Option.some.inj hu2
        refine ⟨v1, v2, hv1, hv2, ?_, ?_⟩
        · rw [← hs1, hu, hs2]
        · intro hflag
          rw [← hc1 hflag, hu, hc2 hflag]
  · intro first eff r rest hmm
    unfold extendCount
    have : ¬(eff + r.batchDim ≤ cfg.maxBatchSize ∧
        requestMatches cfg.enforceEqualShapeTensors first r = true) := by
      intro hc
      rw [hmm] at hc
      exact absurd hc.2 (by simp)
    simp [this]

/-- Concrete witness for claim C4: three requests whose shape tensor
`S` carries `[1]`, `[1]`, `[2]` — the former takes the first two and the
mismatching third remains queued. -/
theorem claim_C4_shape_equality_witness :
    (formBatch ⟨8, [], 0, [("S", true)], 0, fun _ => mkQueuePolicy 0 0, []⟩
        [⟨1, 0, 0, 1, [⟨"S", 4, [1], [1]⟩]⟩, ⟨2, 0, 0, 1, [⟨"S", 4, [1], [1]⟩]⟩,
          ⟨3, 0, 0, 1, [⟨"S", 4, [1], [2]⟩]⟩] ++
      [⟨1, 0, 0, 1, [⟨"S", 4, [1], [1]⟩]⟩, ⟨2, 0, 0, 1, [⟨"S", 4, [1], [1]⟩]⟩,
        ⟨3, 0, 0, 1, [⟨"S", 4, [1], [2]⟩]⟩].drop
        (formBatchCount ⟨8, [], 0, [("S", true)], 0, fun _ => mkQueuePolicy 0 0, []⟩
          [⟨1, 0, 0, 1, [⟨"S", 4, [1], [1]⟩]⟩, ⟨2, 0, 0, 1, [⟨"S", 4, [1], [1]⟩]⟩,
            ⟨3, 0, 0, 1, [⟨"S", 4, [1], [2]⟩]⟩]) =
      [⟨1, 0, 0, 1, [⟨"S", 4, [1], [1]⟩]⟩, ⟨2, 0, 0, 1, [⟨"S", 4, [1], [1]⟩]⟩,
        ⟨3, 0, 0, 1, [⟨"S", 4, [1], [2]⟩]⟩]) ∧
    (∀ r1 ∈ formBatch ⟨8, [], 0, [("S", true)], 0, fun _ => mkQueuePolicy 0 0, []⟩
        [⟨1, 0, 0, 1, [⟨"S", 4, [1], [1]⟩]⟩, ⟨2, 0, 0, 1, [⟨"S", 4, [1], [1]⟩]⟩,
          ⟨3, 0, 0, 1, [⟨"S", 4, [1], [2]⟩]⟩],
      ∀ r2 ∈ formBatch ⟨8, [], 0, [("S", true)], 0, fun _ => mkQueuePolicy 0 0, []⟩
        [⟨1, 0, 0, 1, [⟨"S", 4, [1], [1]⟩]⟩, ⟨2, 0, 0, 1, [⟨"S", 4, [1], [1]⟩]⟩,
          ⟨3, 0, 0, 1, [⟨"S", 4, [1], [2]⟩]⟩],
      ∀ nf ∈ [("S", true)],
      ∃ t1 t2, lookupInput r1 nf.1 = some t1 ∧
        lookupInput r2 nf.1 = some t2 ∧ t1.shape = t2.shape ∧
        (nf.2 = true → t1.contents = t2.contents)) ∧
    (∀ (first : Request) (eff : Nat) (r : Request) (rest : List Request),
      requestMatches [("S", true)] first r = false →
      extendCount ⟨8, [], 0, [("S", true)], 0, fun _ => mkQueuePolicy 0 0, []⟩
        first eff (r :: rest) = 0) :=
  claim_C4_shape_equality
    ⟨8, [], 0, [("S", true)], 0, fun _ => mkQueuePolicy 0 0, []⟩
    [⟨1, 0, 0, 1, [⟨"S", 4, [1], [1]⟩]⟩, ⟨2, 0, 0, 1, [⟨"S", 4, [1], [1]⟩]⟩,
      ⟨3, 0, 0, 1, [⟨"S", 4, [1], [2]⟩]⟩]
    (by decide) (by decide)

theorem levelOffset_cons_succ {α : Type} (x : List α) (rest : List (List α))
    (l : Nat) :
    levelOffset (x :: rest) (l + 1) = x.length + levelOffset rest l := by
  simp [levelOffset, List.take_succ_cons]

theorem levelOffset_succ_le {α : Type} (L : List (List α)) :
    ∀ l : Nat, l < L.length →
      levelOffset L l + (L.getD l []).length ≤ levelOffset L (l + 1) := by
  induction L with
  | nil => intro l hl; simp at hl
  | cons x rest ih =>
      intro l hl
      cases l with
      | zero => simp [levelOffset, List.take_succ_cons]
      | succ l =>
          rw [levelOffset_cons_succ, levelOffset_cons_succ]
          have := ih l (by simpa using Nat.lt_of_succ_lt_succ hl)
          simpa [Nat.add_assoc] using Nat.add_le_add_left this x.length

theorem levelOffset_mono {α : Type} (L : List (List α)) :
    ∀ l1 l2 : Nat, l1 ≤ l2 → levelOffset L l1 ≤ levelOffset L l2 := by
  induction L with
  | nil => intro l1 l2 _; simp [levelOffset]
  | cons x rest ih =>
      intro l1 l2 h
      cases l1 with
      | zero => simp [levelOffset]
      | succ l1 =>
          cases l2 with
          | zero => omega
          | succ l2 =>
              rw [levelOffset_cons_succ, levelOffset_cons_succ]
              exact Nat.add_le_add_left (ih l1 l2 (Nat.le_of_succ_le_succ h)) _

theorem getElem?_flat {α : Type} (L : List (List α)) :
    ∀ (l i : Nat), l < L.length → i < (L.getD l []).length →
      L.flatten[levelOffset L l + i]? = (L.getD l [])[i]? := by
  induction L with
  | nil => intro l i hl _; simp at hl
  | cons x rest ih =>
      intro l i hl hi
      cases l with
      | zero =>
          simp only [levelOffset, List.take_zero, List.map_nil,
            List.sum_nil, Nat.zero_add, List.flatten_cons, List.getD] at *
          exact List.getElem?_append_left (by simpa using hi)
      | succ l =>
          rw [levelOffset_cons_succ]
          simp only [List.flatten_cons, List.getD] at *
          rw [Nat.add_assoc, List.getElem?_append_right (by omega)]
          have harith : x.length + (levelOffset rest l + i) - x.length =
              levelOffset rest l + i := by omega
          rw [harith]
          exact ih l i (by simpa using Nat.lt_of_succ_lt_succ hl) hi

theorem batchOfPos_mono : ∀ (sizes : List Nat) (p1 p2 : Nat), p1 ≤ p2 →
    batchOfPos sizes p1 ≤ batchOfPos sizes p2
  | [], _, _, _ => Nat.le_refl 0
  | n :: rest, p1, p2, h => by
      unfold batchOfPos
      by_cases h1 : p1 < n
      · simp [h1]
      · have h2 : ¬p2 < n := by omega
        simp only [h1, h2, if_false]
        exact Nat.succ_le_succ (batchOfPos_mono rest (p1 - n) (p2 - n) (by omega))

theorem getElem?_flat_batch {α : Type} (Bs : List (List α)) :
    ∀ p : Nat, p < Bs.flatten.length → ∃ j : Nat,
      Bs.flatten[p]? = (Bs.getD (batchOfPos (Bs.map List.length) p) [])[j]? := by
  induction Bs with
  | nil => intro p hp; simp at hp
  | cons x rest ih =>
      intro p hp
      simp only [List.flatten_cons, List.length_append] at hp
      by_cases h1 : p < x.length
      · refine ⟨p, ?_⟩
        simp only [List.map_cons, batchOfPos, h1, if_true, List.getD,
          List.flatten_cons]
        exact List.getElem?_append_left (by simpa using h1)
      · have hrest : p - x.length < rest.flatten.length := by omega
        obtain ⟨j, hj⟩ := ih (p - x.length) hrest
        refine ⟨j, ?_⟩
        simp only [List.map_cons, batchOfPos, h1, if_false, List.getD,
          List.flatten_cons]
        rw [List.getElem?_append_right (by omega)]
        exact hj

theorem drainGo_join (cfg : SchedConfig) :
    ∀ (fuel : Nat) (l : List Request), l.length ≤ fuel →
      (drainGo cfg fuel l).flatten = l := by
  intro fuel
  induction fuel with
  | zero =>
      intro l hl
      have : l = [] := List.length_eq_zero.mp (Nat.le_zero.mp hl)
      rw [this]
      rfl
  | succ fuel ih =>
      intro l hl
      cases l with
      | nil => rfl
      | cons r rest =>
          simp only [drainGo, List.flatten_cons]
          rw [ih _ ?_]
          · exact List.take_append_drop _ _
          · have h1 : 1 ≤ max 1 (formBatchCount cfg (r :: rest)) :=
              Nat.le_max_left 1 _
            simp only [List.length_drop, List.length_cons] at *
            omega

theorem drainBatches_join (cfg : SchedConfig) (pending : List Request) :
    (drainBatches cfg pending).flatten = pending :=
  drainGo_join cfg pending.length pending (Nat.le_refl _)

/-- Claim C5: dequeue order respects priority-then-FIFO.  Within one
level the cursor presents requests in enqueue order; every request of a
higher-priority level sits strictly before every request of a
lower-priority level; batches are popped from the front of the cursor,
their concatenation is exactly the cursor, the batch index is monotone
in cursor position, and the request at cursor position `p` is dispatched
in batch number `batchOfPos p` — so of two same-priority requests the
earlier-enqueued one dispatches in a batch no later than the other's. -/
theorem claim_C5_priority_fifo (cfg : SchedConfig)
    (qs : List (List Request)) :
    (∀ l i j, l < qs.length → i < j → j < (qs.getD l []).length →
      (cursor qs)[cursorPos qs l i]? = (qs.getD l [])[i]? ∧
      (cursor qs)[cursorPos qs l j]? = (qs.getD l [])[j]? ∧
      cursorPos qs l i < cursorPos qs l j) ∧
    (∀ l1 l2 i j, l1 < l2 → l2 < qs.length →
      i < (qs.getD l1 []).length → j < (qs.getD l2 []).length →
      cursorPos qs l1 i < cursorPos qs l2 j) ∧
    ((drainBatches cfg (cursor qs)).flatten = cursor qs) ∧
    (∀ p1 p2, p1 ≤ p2 →
      batchOfPos ((drainBatches cfg (cursor qs)).map List.length) p1 ≤
        batchOfPos ((drainBatches cfg (cursor qs)).map List.length) p2) ∧
    (∀ p, p < (cursor qs).length → ∃ j : Nat,
      (cursor qs)[p]? =
        ((drainBatches cfg (cursor qs)).getD
          (batchOfPos ((drainBatches cfg (cursor qs)).map List.length) p)
          [])[j]?) := by
  refine ⟨?_, ?_, drainBatches_join cfg (cursor qs), ?_, ?_⟩
  · intro l i j hl hij hj
    exact ⟨getElem?_flat qs l i hl (Nat.lt_trans hij hj),
      getElem?_flat qs l j hl hj,
      Nat.add_lt_add_left hij _⟩
  · intro l1 l2 i j h12 hl2 hi hj
    have h1 : cursorPos qs l1 i < levelOffset qs (l1 + 1) := by
      have := levelOffset_succ_le qs l1 (Nat.lt_trans h12 hl2)
      unfold cursorPos
      omega
    have h2 : levelOffset qs (l1 + 1) ≤ levelOffset qs l2 :=
      levelOffset_mono qs (l1 + 1) l2 h12
    have h3 : levelOffset qs l2 ≤ cursorPos qs l2 j := Nat.le_add_right _ _
    omega
  · intro p1 p2 h
    exact batchOfPos_mono _ p1 p2 h
  · intro p hp
    have hj := getElem?_flat_batch (drainBatches cfg (cursor qs)) p
    rw [drainBatches_join cfg (cursor qs)] at hj
    exact hj hp

/-- Concrete witness for claim C5: two priority levels holding requests
1, 2 (level 1) and 3 (level 2); all order facts checked at concrete
positions. -/
theorem claim_C5_priority_fifo_witness :
    ((cursor [[⟨1, 0, 0, 1, []⟩, ⟨2, 0, 0, 1, []⟩], [⟨3, 0, 0, 1, []⟩]])[cursorPos [[⟨1, 0, 0, 1, []⟩, ⟨2, 0, 0, 1, []⟩], [⟨3, 0, 0, 1, []⟩]] 0 0]? =
      (([[⟨1, 0, 0, 1, []⟩, ⟨2, 0, 0, 1, []⟩], [⟨3, 0, 0, 1, []⟩]] : List (List Request)).getD 0 [])[0]? ∧
     (cursor [[⟨1, 0, 0, 1, []⟩, ⟨2, 0, 0, 1, []⟩], [⟨3, 0, 0, 1, []⟩]])[cursorPos [[⟨1, 0, 0, 1, []⟩, ⟨2, 0, 0, 1, []⟩], [⟨3, 0, 0, 1, []⟩]] 0 1]? =
      (([[⟨1, 0, 0, 1, []⟩, ⟨2, 0, 0, 1, []⟩], [⟨3, 0, 0, 1, []⟩]] : List (List Request)).getD 0 [])[1]? ∧
     cursorPos [[⟨1, 0, 0, 1, []⟩, ⟨2, 0, 0, 1, []⟩], [⟨3, 0, 0, 1, []⟩]] 0 0 <
      cursorPos [[⟨1, 0, 0, 1, []⟩, ⟨2, 0, 0, 1, []⟩], [⟨3, 0, 0, 1, []⟩]] 0 1) ∧
    (cursorPos [[⟨1, 0, 0, 1, []⟩, ⟨2, 0, 0, 1, []⟩], [⟨3, 0, 0, 1, []⟩]] 0 1 <
      cursorPos [[⟨1, 0, 0, 1, []⟩, ⟨2, 0, 0, 1, []⟩], [⟨3, 0, 0, 1, []⟩]] 1 0) ∧
    (batchOfPos ((drainBatches ⟨8, [4], 100, [], 2, fun _ => mkQueuePolicy 4 0, []⟩
        (cursor [[⟨1, 0, 0, 1, []⟩, ⟨2, 0, 0, 1, []⟩], [⟨3, 0, 0, 1, []⟩]])).map List.length) 0 ≤
      batchOfPos ((drainBatches ⟨8, [4], 100, [], 2, fun _ => mkQueuePolicy 4 0, []⟩
        (cursor [[⟨1, 0, 0, 1, []⟩, ⟨2, 0, 0, 1, []⟩], [⟨3, 0, 0, 1, []⟩]])).map List.length) 2) := by
  have h := claim_C5_priority_fifo
    ⟨8, [4], 100, [], 2, fun _ => mkQueuePolicy 4 0, []⟩
    [[⟨1, 0, 0, 1, []⟩, ⟨2, 0, 0, 1, []⟩], [⟨3, 0, 0, 1, []⟩]]
  obtain ⟨hw, hx, _, hm, _⟩ := h
  have hw1 := hw 0 0 1 (by decide) (by decide) (by decide)
  exact ⟨⟨hw1.1, hw1.2.1, hw1.2.2⟩,
    hx 0 1 1 0 (by decide) (by decide) (by decide) (by decide),
    hm 0 2 (by decide)⟩

theorem pushLevel_count (pol : QueuePolicy) (q : List Request) (r : Request)
    (id : Nat) :
    countReq id (pushLevel pol q r).1 +
      countEv id (pushEvents r (pushLevel pol q r).2) =
    countReq id q + countReq id [r] := by
  unfold pushLevel
  by_cases hf : levelFull pol q = true
  · rw [if_pos hf]
    cases hact : pol.fullAction with
    | rejectNew =>
        simp only [countEv, countReq, pushEvents, List.countP_cons,
          List.countP_nil]
    | dropOldest =>
        cases q with
        | nil =>
            simp only [countEv, countReq, pushEvents, List.countP_append,
              List.countP_cons, List.countP_nil]
            omega
        | cons old rest =>
            simp only [countEv, countReq, pushEvents, List.countP_append,
              List.countP_cons, List.countP_nil]
            omega
  · rw [if_neg hf]
    simp only [countEv, countReq, pushEvents, List.countP_append,
      List.countP_cons, List.countP_nil]
    omega

theorem countQs_cons (id : Nat) (q : List Request)
    (rest : List (List Request)) :
    countQs id (q :: rest) = countReq id q + countQs id rest := by
  simp [countQs]

theorem countQs_set (id : Nat) (qs : List (List Request)) :
    ∀ (idx : Nat) (v : List Request), idx < qs.length →
      countQs id (qs.set idx v) + countReq id (qs.getD idx []) =
        countQs id qs + countReq id v := by
  induction qs with
  | nil => intro idx v h; simp at h
  | cons q rest ih =>
      intro idx v h
      cases idx with
      | zero =>
          simp only [List.set_cons_zero, List.getD_cons_zero, countQs_cons]
          omega
      | succ idx =>
          simp only [List.set_cons_succ, List.getD_cons_succ, countQs_cons]
          have := ih idx v (by simpa using Nat.lt_of_succ_lt_succ h)
          omega

theorem targetLevel_le_max (P prio : Nat) : targetLevel P prio ≤ max P 1 := by
  by_cases h : P = 0
  · subst h
    unfold targetLevel
    simp
  · have := targetLevel_le P prio (Nat.one_le_iff_ne_zero.mpr h)
    omega

theorem schedPush_count (P : Nat) (pols : Nat → QueuePolicy)
    (qs : List (List Request)) (r : Request) (id : Nat)
    (hlen : qs.length = max P 1) :
    countQs id (schedPush P pols qs r).1 +
      countEv id (schedPush P pols qs r).2 =
    countQs id qs + countReq id [r] := by
  have hidx : targetLevel P r.priority - 1 < qs.length := by
    have h1 := targetLevel_ge_one P r.priority
    have h2 := targetLevel_le_max P r.priority
    omega
  have hset := countQs_set id qs (targetLevel P r.priority - 1)
    (pushLevel (pols (targetLevel P r.priority))
      (qs.getD (targetLevel P r.priority - 1) []) r).1 hidx
  have hpush := pushLevel_count (pols (targetLevel P r.priority))
    (qs.getD (targetLevel P r.priority - 1) []) r id
  show countQs id (qs.set (targetLevel P r.priority - 1)
      (pushLevel (pols (targetLevel P r.priority))
        (qs.getD (targetLevel P r.priority - 1) []) r).1) +
    countEv id (pushEvents r
      (pushLevel (pols (targetLevel P r.priority))
        (qs.getD (targetLevel P r.priority - 1) []) r).2) =
    countQs id qs + countReq id [r]
  omega

theorem enqueue_count (cfg : SchedConfig) (qs : List (List Request))
    (r : Request) (id : Nat)
    (hlen : qs.length = max cfg.priorityLevels 1) :
    countQs id (enqueue cfg qs r).1 + countEv id (enqueue cfg qs r).2 =
      countQs id qs + countReq id [r] := by
  unfold enqueue
  by_cases hv : validRequest cfg.schema r = true
  · rw [if_pos hv]
    exact schedPush_count cfg.priorityLevels cfg.policies qs r id hlen
  · rw [if_neg hv]
    simp only [countEv, countReq, List.countP_cons, List.countP_nil]

theorem enqueue_length (cfg : SchedConfig) (qs : List (List Request))
    (r : Request) : (enqueue cfg qs r).1.length = qs.length := by
  unfold enqueue
  by_cases hv : validRequest cfg.schema r = true
  · rw [if_pos hv]
    unfold schedPush
    exact List.length_set qs _ _
  · rw [if_neg hv]

theorem enqueueFold_count (cfg : SchedConfig) (id : Nat) :
    ∀ (incoming : List Request)
      (acc : List (List Request) × List SinkEvent),
      acc.1.length = max cfg.priorityLevels 1 →
      countQs id (List.foldl (enqueueStep cfg) acc incoming).1 +
        countEv id (List.foldl (enqueueStep cfg) acc incoming).2 =
      countQs id acc.1 + countEv id acc.2 + countReq id incoming
  | [], acc, _ => by simp [countReq]
  | r :: rest, acc, hlen => by
      rw [List.foldl_cons]
      have hstep : (enqueueStep cfg acc r).1.length =
          max cfg.priorityLevels 1 := by
        unfold enqueueStep
        rw [enqueue_length]
        exact hlen
      have ih := enqueueFold_count cfg id rest (enqueueStep cfg acc r) hstep
      have henq := enqueue_count cfg acc.1 r id hlen
      have hacc1 : countQs id (enqueueStep cfg acc r).1 =
          countQs id (enqueue cfg acc.1 r).1 := rfl
      have hacc2 : countEv id (enqueueStep cfg acc r).2 =
          countEv id acc.2 + countEv id (enqueue cfg acc.1 r).2 := by
        show countEv id (acc.2 ++ (enqueue cfg acc.1 r).2) = _
        simp [countEv, List.countP_append]
      have hr : countReq id (r :: rest) =
          countReq id [r] + countReq id rest := by
        simp only [countReq, List.countP_cons, List.countP_nil]
        omega
      rw [hacc1, hacc2] at ih
      omega

theorem expireLevel_count (now timeout id : Nat) :
    ∀ q : List Request,
      countReq id (expireLevel now timeout q).1 +
        countEv id (expireLevel now timeout q).2 = countReq id q
  | [] => by simp [expireLevel, countReq, countEv]
  | r :: rest => by
      unfold expireLevel
      by_cases hc : timeout ≠ 0 ∧ r.enqueueTime + timeout < now
      · rw [if_pos hc]
        have ih := expireLevel_count now timeout id rest
        simp only [countEv, countReq, List.countP_cons] at *
        omega
      · rw [if_neg hc]
        simp [countEv, countReq]

theorem expireAllGo_count (cfg : SchedConfig) (now id : Nat) :
    ∀ (lvl : Nat) (qs : List (List Request)),
      countQs id (expireAllGo cfg now lvl qs).1 +
        countEv id (expireAllGo cfg now lvl qs).2 = countQs id qs
  | _, [] => by simp [expireAllGo, countQs, countEv]
  | lvl, q :: rest => by
      unfold expireAllGo
      have ih := expireAllGo_count cfg now id (lvl + 1) rest
      have hl := expireLevel_count now (cfg.policies lvl).timeoutUs id q
      simp only [countQs_cons, countEv, List.countP_append] at *
      omega

theorem dispatchEvents_count (cfg : SchedConfig) (id : Nat)
    (qs : List (List Request)) :
    countEv id (dispatchEvents cfg qs) = countQs id qs := by
  unfold dispatchEvents
  rw [drainBatches_join]
  unfold countEv
  rw [List.countP_map]
  unfold cursor
  rw [List.countP_flatten]
  unfold countQs countReq
  rfl

/-- Claim C1: every request handed to `Enqueue` has its response sink
invoked exactly once over the whole scheduler run — by the scheduler on
validation failure, queue-policy rejection or timeout, or by the runner
on normal completion — and never a second time. -/
theorem claim_C1_sink_exactly_once (cfg : SchedConfig) (now : Nat)
    (incoming : List Request) (r : Request)
    (hnodup : (incoming.map Request.id).Nodup) (hmem : r ∈ incoming) :
    countEv r.id (runScheduler cfg now incoming) = 1 := by
  have hone : countReq r.id incoming = 1 := by
    have hmm : r.id ∈ incoming.map Request.id :=
      List.mem_map_of_mem Request.id hmem
    have hcnt := List.count_eq_one_of_mem hnodup hmm
    unfold countReq
    rw [← hcnt]
    unfold List.count
    rw [List.countP_map]
    rfl
  have hstart : (emptyQueues cfg.priorityLevels, ([] : List SinkEvent)).1.length =
      max cfg.priorityLevels 1 := by
    simp [emptyQueues]
  have henq : countQs r.id
      (List.foldl (enqueueStep cfg) (emptyQueues cfg.priorityLevels, []) incoming).1 +
      countEv r.id
      (List.foldl (enqueueStep cfg) (emptyQueues cfg.priorityLevels, []) incoming).2 =
      countQs r.id (emptyQueues cfg.priorityLevels) +
      countEv r.id [] + countReq r.id incoming :=
    enqueueFold_count cfg r.id incoming (emptyQueues cfg.priorityLevels, []) hstart
  have hzero : countQs r.id (emptyQueues cfg.priorityLevels) = 0 := by
    unfold countQs emptyQueues countReq
    induction (max cfg.priorityLevels 1) with
    | zero => rfl
    | succ n ihn => simpa [List.replicate_succ] using ihn
  have hnilev : countEv r.id [] = 0 := rfl
  have henq2 : countQs r.id (enqueueAll cfg incoming).1 +
      countEv r.id (enqueueAll cfg incoming).2 = 1 := by
    show countQs r.id
        (List.foldl (enqueueStep cfg) (emptyQueues cfg.priorityLevels, []) incoming).1 +
      countEv r.id
        (List.foldl (enqueueStep cfg) (emptyQueues cfg.priorityLevels, []) incoming).2 = 1
    omega
  have hexp2 : countQs r.id (expireAll cfg now (enqueueAll cfg incoming).1).1 +
      countEv r.id (expireAll cfg now (enqueueAll cfg incoming).1).2 =
      countQs r.id (enqueueAll cfg incoming).1 :=
    expireAllGo_count cfg now r.id 1 (enqueueAll cfg incoming).1
  have hdisp : countEv r.id
      (dispatchEvents cfg (expireAll cfg now (enqueueAll cfg incoming).1).1) =
      countQs r.id (expireAll cfg now (enqueueAll cfg incoming).1).1 :=
    dispatchEvents_count cfg r.id (expireAll cfg now (enqueueAll cfg incoming).1).1
  have hsplit : countEv r.id (runScheduler cfg now incoming) =
      countEv r.id (enqueueAll cfg incoming).2 +
      countEv r.id (expireAll cfg now (enqueueAll cfg incoming).1).2 +
      countEv r.id
        (dispatchEvents cfg (expireAll cfg now (enqueueAll cfg incoming).1).1) := by
    show countEv r.id ((enqueueAll cfg incoming).2 ++
      (expireAll cfg now (enqueueAll cfg incoming).1).2 ++
      dispatchEvents cfg (expireAll cfg now (enqueueAll cfg incoming).1).1) = _
    simp only [countEv, List.countP_append]
  rw [hsplit]
  omega

/-- Concrete witness for claim C1: three requests — one valid and
dispatched, one failing validation, one expiring in the queue — each
receives exactly one sink invocation. -/
theorem claim_C1_sink_exactly_once_witness :
    countEv 2 (runScheduler ⟨8, [], 1000, [], 0, fun _ => ⟨0, FullAction.rejectNew, 5⟩,
      [("IN", 4)]⟩ 50
      [⟨1, 0, 0, 1, [⟨"IN", 4, [1], []⟩]⟩, ⟨2, 0, 0, 1, []⟩,
        ⟨3, 0, 40, 1, [⟨"IN", 4, [1], []⟩]⟩]) = 1 :=
  claim_C1_sink_exactly_once
    ⟨8, [], 1000, [], 0, fun _ => ⟨0, FullAction.rejectNew, 5⟩, [("IN", 4)]⟩ 50
    [⟨1, 0, 0, 1, [⟨"IN", 4, [1], []⟩]⟩, ⟨2, 0, 0, 1, []⟩,
      ⟨3, 0, 40, 1, [⟨"IN", 4, [1], []⟩]⟩]
    ⟨2, 0, 0, 1, []⟩ (by decide) (by decide)

theorem emitReady_append (ready : List Nat) :
    ∀ q : List Nat, (emitReady ready q).1 ++ (emitReady ready q).2 = q
  | [] => rfl
  | c :: rest => by
      unfold emitReady
      by_cases h : c ∈ ready
      · simp only [h, if_true, List.cons_append]
        rw [emitReady_append ready rest]
      · simp [h]

theorem emitReady_all (ready : List Nat) :
    ∀ q : List Nat, (∀ x ∈ q, x ∈ ready) → emitReady ready q = (q, [])
  | [], _ => rfl
  | c :: rest, h => by
      unfold emitReady
      have hc : c ∈ ready := h c (List.mem_cons_self c rest)
      simp only [hc, if_true]
      rw [emitReady_all ready rest (fun x hx => h x (List.mem_cons_of_mem c hx))]

theorem ordererInv (n : Nat) :
    ∀ (events : List Nat) (s : OrdererState),
      s.emitted ++ s.idQueue = List.range n →
      (List.foldl ordererStep s events).emitted ++
        (List.foldl ordererStep s events).idQueue = List.range n
  | [], s, h => h
  | c :: rest, s, h => by
      rw [List.foldl_cons]
      refine ordererInv n rest (ordererStep s c) ?_
      unfold ordererStep
      rw [List.append_assoc, emitReady_append]
      exact h

theorem ordererReady :
    ∀ (events : List Nat) (s : OrdererState) (x : Nat),
      (x ∈ s.ready ∨ x ∈ events) →
      x ∈ (List.foldl ordererStep s events).ready
  | [], _, _, h => by
      rcases h with h | h
      · exact h
      · simp at h
  | c :: rest, s, x, h => by
      rw [List.foldl_cons]
      refine ordererReady rest (ordererStep s c) x ?_
      rcases h with h | h
      · exact Or.inl (List.mem_cons_of_mem c h)
      · rcases List.mem_cons.mp h with he | hm
        · exact Or.inl (he ▸ List.mem_cons_self c s.ready)
        · exact Or.inr hm

/-- Claim C6: with `preserve_ordering` on, the orderer delivers
responses in strictly ascending completion-id order — at any point the
delivered ids are exactly `0, …, k-1`, so id `c` is delivered only after
every `c' < c` — and once every batch has completed the emission order
equals the dispatch (dequeue) order `0, …, n-1`; with ordering off the
emission order is the completion order, which can differ from the
dequeue order. -/
theorem claim_C6_ordered_completion (n : Nat) (events : List Nat) :
    ((runOrderer n events).emitted =
      List.range (runOrderer n events).emitted.length) ∧
    ((∀ c, c < n → c ∈ events) →
      (runOrderer n events).emitted = List.range n) ∧
    (finalizeDirect [1, 0] = [1, 0] ∧ finalizeDirect [1, 0] ≠ List.range 2) := by
  have hinv : (runOrderer n events).emitted ++
      (runOrderer n events).idQueue = List.range n := by
    unfold runOrderer
    exact ordererInv n events (initOrderer n) (by simp [initOrderer])
  refine ⟨?_, ?_, rfl, by simp [finalizeDirect, List.range_succ]⟩
  · have hle : (runOrderer n events).emitted.length ≤ n := by
      have hc := congrArg List.length hinv
      simp only [List.length_append, List.length_range] at hc
      omega
    calc (runOrderer n events).emitted
        = (List.range n).take (runOrderer n events).emitted.length := by
          rw [← hinv, List.take_left]
      _ = List.range (min (runOrderer n events).emitted.length n) :=
          List.take_range _ _
      _ = List.range (runOrderer n events).emitted.length := by
          rw [Nat.min_eq_left hle]
  · intro hall
    rcases List.eq_nil_or_concat events with he | ⟨es, c, hec⟩
    · have hn : n = 0 := by
        by_contra hn0
        have := hall 0 (Nat.pos_of_ne_zero hn0)
        rw [he] at this
        simp at this
      rw [he, hn]
      rfl
    · have hprev : (List.foldl ordererStep (initOrderer n) es).emitted ++
          (List.foldl ordererStep (initOrderer n) es).idQueue = List.range n :=
        ordererInv n es (initOrderer n) (by simp [initOrderer])
      have hstep : runOrderer n events =
          ordererStep (List.foldl ordererStep (initOrderer n) es) c := by
        unfold runOrderer
        rw [hec, List.concat_eq_append, List.foldl_append, List.foldl_cons,
          List.foldl_nil]
      have hready : ∀ x ∈ (List.foldl ordererStep (initOrderer n) es).idQueue,
          x ∈ c :: (List.foldl ordererStep (initOrderer n) es).ready := by
        intro x hx
        have hxr : x ∈ List.range n := by
          rw [← hprev]
          exact List.mem_append_right _ hx
        have hxe : x ∈ events := hall x (List.mem_range.mp hxr)
        rw [hec, List.concat_eq_append] at hxe
        rcases List.mem_append.mp hxe with hm | hm
        · exact List.mem_cons_of_mem c (ordererReady es (initOrderer n) x (Or.inr hm))
        · rcases List.mem_singleton.mp hm with hx1
          exact hx1 ▸ List.mem_cons_self c _
      have hdone := emitReady_all
        (c :: (List.foldl ordererStep (initOrderer n) es).ready)
        (List.foldl ordererStep (initOrderer n) es).idQueue hready
      rw [hstep]
      show (List.foldl ordererStep (initOrderer n) es).emitted ++
          (emitReady (c :: (List.foldl ordererStep (initOrderer n) es).ready)
            (List.foldl ordererStep (initOrderer n) es).idQueue).1 =
          List.range n
      rw [hdone]
      exact hprev

/-- Concrete witness for claim C6: three batches completing in the
order 2, 0, 1 are still delivered in order 0, 1, 2. -/
theorem claim_C6_ordered_completion_witness :
    ((runOrderer 3 [2, 0, 1]).emitted =
      List.range (runOrderer 3 [2, 0, 1]).emitted.length) ∧
    ((∀ c, c < 3 → c ∈ [2, 0, 1]) →
      (runOrderer 3 [2, 0, 1]).emitted = List.range 3) ∧
    (finalizeDirect [1, 0] = [1, 0] ∧ finalizeDirect [1, 0] ≠ List.range 2) :=
  claim_C6_ordered_completion 3 [2, 0, 1]

/-- Claim C7: when a push targets a queue level whose size has reached
its `max_queue_size`, the level's rejection rule is enforced: with the
reject policy the new request is answered with a queue-full error and
the queued requests stay unchanged; with the drop-oldest policy the
oldest entry is answered with a timeout error and the remaining entries
stay unchanged; the default policy rejects the newest.  The rejection
affects no other request. -/
theorem claim_C7_queue_full_policy (pol : QueuePolicy) (q : List Request)
    (r : Request) (hfull : q.length = pol.maxQueueSize)
    (hmax : 0 < pol.maxQueueSize) :
    (pol.fullAction = FullAction.rejectNew →
      pushLevel pol q r = (q, PushOutcome.rejectedNew) ∧
      pushEvents r PushOutcome.rejectedNew =
        [⟨r.id, some ErrKind.queueFull, SinkSource.scheduler⟩]) ∧
    (∀ old rest, pol.fullAction = FullAction.dropOldest →
      q = old :: rest →
      pushLevel pol q r = (rest ++ [r], PushOutcome.droppedOldest old) ∧
      pushEvents r (PushOutcome.droppedOldest old) =
        [⟨old.id, some ErrKind.timeout, SinkSource.scheduler⟩]) ∧
    defaultFullAction = FullAction.rejectNew := by
  have hf : levelFull pol q = true := by
    unfold levelFull
    simp only [Bool.and_eq_true, bne_iff_ne, ne_eq, decide_eq_true_eq]
    omega
  refine ⟨?_, ?_, rfl⟩
  · intro ha
    unfold pushLevel
    rw [hf, ha]
    exact ⟨rfl, rfl⟩
  · intro old rest ha hq
    unfold pushLevel
    rw [hf, ha, hq]
    exact ⟨rfl, rfl⟩

/-- Concrete witness for claim C7: a level of capacity one holding one
request, exercised under both rejection rules. -/
theorem claim_C7_queue_full_policy_witness :
    ((⟨1, FullAction.rejectNew, 0⟩ : QueuePolicy).fullAction = FullAction.rejectNew →
      pushLevel ⟨1, FullAction.rejectNew, 0⟩ [⟨5, 0, 0, 1, []⟩] ⟨6, 0, 0, 1, []⟩ =
        ([⟨5, 0, 0, 1, []⟩], PushOutcome.rejectedNew) ∧
      pushEvents ⟨6, 0, 0, 1, []⟩ PushOutcome.rejectedNew =
        [⟨6, some ErrKind.queueFull, SinkSource.scheduler⟩]) ∧
    (∀ old rest,
      (⟨1, FullAction.rejectNew, 0⟩ : QueuePolicy).fullAction = FullAction.dropOldest →
      [(⟨5, 0, 0, 1, []⟩ : Request)] = old :: rest →
      pushLevel ⟨1, FullAction.rejectNew, 0⟩ [⟨5, 0, 0, 1, []⟩] ⟨6, 0, 0, 1, []⟩ =
        (rest ++ [⟨6, 0, 0, 1, []⟩], PushOutcome.droppedOldest old) ∧
      pushEvents ⟨6, 0, 0, 1, []⟩ (PushOutcome.droppedOldest old) =
        [⟨old.id, some ErrKind.timeout, SinkSource.scheduler⟩]) ∧
    defaultFullAction = FullAction.rejectNew :=
  claim_C7_queue_full_policy ⟨1, FullAction.rejectNew, 0⟩
    [⟨5, 0, 0, 1, []⟩] ⟨6, 0, 0, 1, []⟩ (by decide) (by decide)

/-- Claim C8: a pushed request is placed in the queue level matching its
priority clamped into `[1, P]`, and a request with unspecified priority
goes to level `⌊P/2⌋ + 1` when `P ≥ 1`; when the target level has room
the request is appended to exactly that level's FIFO. -/
theorem claim_C8_push_level (P : Nat) (pols : Nat → QueuePolicy)
    (qs : List (List Request)) (r : Request) (hP : 1 ≤ P)
    (hlen : qs.length = P)
    (hroom : levelFull (pols (targetLevel P r.priority))
      (qs.getD (targetLevel P r.priority - 1) []) = false) :
    (1 ≤ targetLevel P r.priority ∧ targetLevel P r.priority ≤ P) ∧
    (1 ≤ r.priority →
      targetLevel P r.priority = max 1 (min r.priority P)) ∧
    (r.priority = 0 → targetLevel P r.priority = P / 2 + 1) ∧
    schedPush P pols qs r =
      (qs.set (targetLevel P r.priority - 1)
        (qs.getD (targetLevel P r.priority - 1) [] ++ [r]), []) := by
  refine ⟨⟨targetLevel_ge_one P r.priority, targetLevel_le P r.priority hP⟩, ?_, ?_, ?_⟩
  · intro hpr
    unfold targetLevel
    have hP0 : P ≠ 0 := Nat.one_le_iff_ne_zero.mp hP
    have hpr0 : r.priority ≠ 0 := Nat.one_le_iff_ne_zero.mp hpr
    simp [hP0, hpr0]
  · intro hpr
    unfold targetLevel
    have hP0 : P ≠ 0 := Nat.one_le_iff_ne_zero.mp hP
    simp [hP0, hpr]
  · simp only [schedPush, pushLevel, hroom, Bool.false_eq_true, if_false, pushEvents]

/-- Concrete witness for claim C8: three priority levels and a request
with unspecified priority lands in level 2. -/
theorem claim_C8_push_level_witness :
    (1 ≤ targetLevel 3 (0 : Nat) ∧ targetLevel 3 (0 : Nat) ≤ 3) ∧
    (1 ≤ (0 : Nat) → targetLevel 3 0 = max 1 (min 0 3)) ∧
    ((0 : Nat) = 0 → targetLevel 3 0 = 3 / 2 + 1) ∧
    schedPush 3 (fun _ => mkQueuePolicy 4 0) [[], [], []] ⟨9, 0, 0, 1, []⟩ =
      (([[], [], []] : List (List Request)).set (targetLevel 3 0 - 1)
        (([[], [], []] : List (List Request)).getD (targetLevel 3 0 - 1) [] ++
          [⟨9, 0, 0, 1, []⟩]), []) := by
  have h := claim_C8_push_level 3 (fun _ => mkQueuePolicy 4 0)
    [[], [], []] ⟨9, 0, 0, 1, []⟩ (by decide) (by decide) (by decide)
  exact h

theorem gatherGo_ge (dstMem : MemType) :
    ∀ (pairs : List (Nat × ReqInput)) (i off : Nat),
      (∀ c ∈ (gatherGo dstMem i off pairs).copies, i ≤ c.reqIndex) ∧
      (∀ e ∈ (gatherGo dstMem i off pairs).errors, i ≤ e)
  | [], i, off => by
      refine ⟨?_, ?_⟩ <;> intro c hc <;> simp [gatherGo] at hc
  | (exp, inp) :: rest, i, off => by
      have ih := gatherGo_ge dstMem rest (i + 1) (off + exp)
      unfold gatherGo
      by_cases h : inp.actualByteSize = exp
      · rw [if_pos h]
        refine ⟨?_, ?_⟩
        · intro c hc
          rcases List.mem_cons.mp hc with he | hm
          · rw [he]
          · exact Nat.le_of_succ_le (ih.1 c hm)
        · intro e he
          exact Nat.le_of_succ_le (ih.2 e he)
      · rw [if_neg h]
        refine ⟨?_, ?_⟩
        · intro c hc
          exact Nat.le_of_succ_le (ih.1 c hc)
        · intro e he
          rcases List.mem_cons.mp he with h1 | hm
          · omega
          · exact Nat.le_of_succ_le (ih.2 e hm)

theorem countP_eq_zero_of_ge (i : Nat) (l : List CopyOp)
    (h : ∀ c ∈ l, i + 1 ≤ c.reqIndex) :
    List.countP (fun c => c.reqIndex == i) l = 0 := by
  refine List.countP_eq_zero.mpr ?_
  intro c hc
  have := h c hc
  simp only [beq_iff_eq]
  omega

theorem gatherGo_spec (dstMem : MemType) :
    ∀ (pairs : List (Nat × ReqInput)) (i off j exp : Nat) (inp : ReqInput),
      pairs[j]? = some (exp, inp) →
      (inp.actualByteSize = exp →
        List.countP (fun c => c.reqIndex == i + j)
          (gatherGo dstMem i off pairs).copies = 1 ∧
        CopyOp.mk (i + j) (off + ((pairs.take j).map Prod.fst).sum) exp
          inp.srcMem ∈ (gatherGo dstMem i off pairs).copies ∧
        (i + j) ∉ (gatherGo dstMem i off pairs).errors) ∧
      (inp.actualByteSize ≠ exp →
        (i + j) ∈ (gatherGo dstMem i off pairs).errors ∧
        List.countP (fun c => c.reqIndex == i + j)
          (gatherGo dstMem i off pairs).copies = 0)
  | [], i, off, j, exp, inp, hj => by simp at hj
  | (e0, p0) :: rest, i, off, j, exp, inp, hj => by
      have hge := gatherGo_ge dstMem rest (i + 1) (off + e0)
      cases j with
      | zero =>
          rw [List.getElem?_cons_zero] at hj
          have hpair : e0 = exp ∧ p0 = inp := by
            have := Option.some.inj hj
            exact ⟨congrArg Prod.fst this, congrArg Prod.snd this⟩
          obtain ⟨rfl, rfl⟩ := hpair
          unfold gatherGo
          by_cases h : p0.actualByteSize = e0
          · rw [if_pos h]
            refine ⟨fun _ => ⟨?_, ?_, ?_⟩, fun hne => absurd h hne⟩
            · simp only [List.countP_cons, beq_self_eq_true, if_true,
                Nat.add_zero]
              rw [countP_eq_zero_of_ge i _ ?_]
              · intro c hc
                simpa using hge.1 c hc
            · simp only [Nat.add_zero, List.take_zero, List.map_nil,
                List.sum_nil]
              exact List.mem_cons_self _ _
            · intro hmem
              simp only [Nat.add_zero] at hmem
              have := hge.2 i hmem
              omega
          · rw [if_neg h]
            refine ⟨fun heq => absurd heq h, fun _ => ⟨?_, ?_⟩⟩
            · simp only [Nat.add_zero]
              exact List.mem_cons_self _ _
            · simp only [Nat.add_zero]
              exact countP_eq_zero_of_ge i _ (fun c hc => hge.1 c hc)
      | succ j =>
          rw [List.getElem?_cons_succ] at hj
          have ih := gatherGo_spec dstMem rest (i + 1) (off + e0) j exp inp hj
          have harith : i + 1 + j = i + (j + 1) := by omega
          have hoff : off + e0 + ((rest.take j).map Prod.fst).sum =
              off + ((((e0, p0) :: rest).take (j + 1)).map Prod.fst).sum := by
            simp only [List.take_succ_cons, List.map_cons, List.sum_cons]
            omega
          rw [harith, hoff] at ih
          unfold gatherGo
          by_cases h : p0.actualByteSize = e0
          · rw [if_pos h]
            refine ⟨fun heq => ?_, fun hne => ?_⟩
            · obtain ⟨hcnt, hmem, herr⟩ := ih.1 heq
              refine ⟨?_, List.mem_cons_of_mem _ hmem, herr⟩
              simp only [List.countP_cons, beq_iff_eq]
              have : ¬(i = i + (j + 1)) := by omega
              simp only [this, if_false, Nat.add_zero]
              exact hcnt
            · obtain ⟨hmem, hcnt⟩ := ih.2 hne
              refine ⟨hmem, ?_⟩
              simp only [List.countP_cons, beq_iff_eq]
              have : ¬(i = i + (j + 1)) := by omega
              simp only [this, if_false, Nat.add_zero]
              exact hcnt
          · rw [if_neg h]
            refine ⟨fun heq => ?_, fun hne => ?_⟩
            · obtain ⟨hcnt, hmem, herr⟩ := ih.1 heq
              refine ⟨hcnt, hmem, ?_⟩
              intro hmem2
              rcases List.mem_cons.mp hmem2 with h1 | hm
              · omega
              · exact herr hm
            · obtain ⟨hmem, hcnt⟩ := ih.2 hne
              exact ⟨List.mem_cons_of_mem _ hmem, hcnt⟩

theorem gatherGo_cuda (dstMem : MemType) :
    ∀ (pairs : List (Nat × ReqInput)) (i off : Nat),
      ((gatherGo dstMem i off pairs).cudaUsed = true ↔
        0 < ((gatherGo dstMem i off pairs).copies.filter
          (fun c => copyUsesCuda c.srcMem dstMem)).length)
  | [], i, off => by simp [gatherGo]
  | (e0, p0) :: rest, i, off => by
      have ih := gatherGo_cuda dstMem rest (i + 1) (off + e0)
      unfold gatherGo
      by_cases h : p0.actualByteSize = e0
      · rw [if_pos h]
        by_cases hc : copyUsesCuda p0.srcMem dstMem = true
        · simp [List.filter_cons, hc]
        · have hcf : copyUsesCuda p0.srcMem dstMem = false := by
            simpa using hc
          simp [List.filter_cons, hcf, ih]
      · rw [if_neg h]
        exact ih

theorem responderFold_inv (srcMem : MemType) :
    ∀ (dsts : List MemType) (st : ResponderState),
      (st.needSync = true ↔ 0 < st.asyncCopies) →
      ((processTensor srcMem dsts st).needSync = true ↔
        0 < (processTensor srcMem dsts st).asyncCopies)
  | [], st, h => h
  | dst :: rest, st, h => by
      unfold processTensor
      rw [List.foldl_cons]
      refine responderFold_inv srcMem rest _ ?_
      by_cases hc : copyUsesCuda srcMem dst = true
      · simp [hc]
      · have hcf : copyUsesCuda srcMem dst = false := by
          simpa using hc
        simpa [hcf] using h

theorem runResponder_inv :
    ∀ (outputs : List (MemType × List MemType)) (st : ResponderState),
      (st.needSync = true ↔ 0 < st.asyncCopies) →
      ((outputs.foldl (fun st o => processTensor o.1 o.2 st) st).needSync =
          true ↔
        0 < (outputs.foldl
          (fun st o => processTensor o.1 o.2 st) st).asyncCopies)
  | [], _, h => h
  | o :: rest, st, h => by
      rw [List.foldl_cons]
      exact runResponder_inv rest (processTensor o.1 o.2 st)
        (responderFold_inv o.1 o.2 st h)

/-- Claim C9: the data-plane gather and scatter helpers report whether
an asynchronous device copy was issued — `SetInputBuffer` returns `true`
if and only if at least one `cudaMemcpyAsync` was called while packing,
and `BackendResponder::Finalize` returns `true` if and only if at least
one `cudaMemcpyAsync` was issued while scattering; when they return
`false` no transfer-stream synchronisation is needed. -/
theorem claim_C9_async_copy_flag (dstMem : MemType) (expected : List Nat)
    (inputs : List ReqInput) (outputs : List (MemType × List MemType)) :
    ((setInputBuffer dstMem expected inputs).cudaUsed = true ↔
      0 < asyncCopyCount dstMem (setInputBuffer dstMem expected inputs)) ∧
    (finalize (runResponder outputs) = true ↔
      0 < (runResponder outputs).asyncCopies) := by
  refine ⟨?_, ?_⟩
  · exact gatherGo_cuda dstMem (expected.zip inputs) 0 0
  · exact runResponder_inv outputs initResponder (by simp [initResponder])

/-- Claim C10: a per-request byte-size mismatch in `SetInputBuffer`
produces an error response for that request only — a well-sized request
receives exactly one copy into the contiguous buffer, placed at the
offset equal to the total expected size of the requests before it, and
is never answered with an error; a mismatched request gets the error and
no copy, and no other request is affected. -/
theorem claim_C10_per_request_isolation (dstMem : MemType)
    (expected : List Nat) (inputs : List ReqInput) (j exp : Nat)
    (inp : ReqInput) (hlen : expected.length ≤ inputs.length)
    (he : expected[j]? = some exp) (hi : inputs[j]? = some inp) :
    (inp.actualByteSize = exp →
      List.countP (fun c => c.reqIndex == j)
        (setInputBuffer dstMem expected inputs).copies = 1 ∧
      CopyOp.mk j (expected.take j).sum exp inp.srcMem ∈
        (setInputBuffer dstMem expected inputs).copies ∧
      j ∉ (setInputBuffer dstMem expected inputs).errors) ∧
    (inp.actualByteSize ≠ exp →
      j ∈ (setInputBuffer dstMem expected inputs).errors ∧
      List.countP (fun c => c.reqIndex == j)
        (setInputBuffer dstMem expected inputs).copies = 0) := by
  have hz : (expected.zip inputs)[j]? = some (exp, inp) :=
    List.getElem?_zip_eq_some.mpr ⟨he, hi⟩
  have hspec := gatherGo_spec dstMem (expected.zip inputs) 0 0 j exp inp hz
  have hmap : ((expected.zip inputs).take j).map Prod.fst =
      expected.take j := by
    rw [List.map_take, List.map_fst_zip expected inputs hlen]
  rw [hmap] at hspec
  simpa using hspec

/-- Concrete witness for claim C10: of three requests expecting 4 bytes
each, the second delivers only 2 bytes — it alone is answered with an
error, while the others' packing is unaffected. -/
theorem claim_C10_per_request_isolation_witness :
    (((⟨2, MemType.gpu⟩ : ReqInput).actualByteSize = 4 →
      List.countP (fun c => c.reqIndex == 1)
        (setInputBuffer MemType.cpu [4, 4, 4]
          [⟨4, MemType.cpu⟩, ⟨2, MemType.gpu⟩, ⟨4, MemType.cpu⟩]).copies = 1 ∧
      CopyOp.mk 1 ([4, 4, 4].take 1).sum 4 MemType.gpu ∈
        (setInputBuffer MemType.cpu [4, 4, 4]
          [⟨4, MemType.cpu⟩, ⟨2, MemType.gpu⟩, ⟨4, MemType.cpu⟩]).copies ∧
      1 ∉ (setInputBuffer MemType.cpu [4, 4, 4]
        [⟨4, MemType.cpu⟩, ⟨2, MemType.gpu⟩, ⟨4, MemType.cpu⟩]).errors) ∧
    ((⟨2, MemType.gpu⟩ : ReqInput).actualByteSize ≠ 4 →
      1 ∈ (setInputBuffer MemType.cpu [4, 4, 4]
        [⟨4, MemType.cpu⟩, ⟨2, MemType.gpu⟩, ⟨4, MemType.cpu⟩]).errors ∧
      List.countP (fun c => c.reqIndex == 1)
        (setInputBuffer MemType.cpu [4, 4, 4]
          [⟨4, MemType.cpu⟩, ⟨2, MemType.gpu⟩, ⟨4, MemType.cpu⟩]).copies = 0)) :=
  claim_C10_per_request_isolation MemType.cpu [4, 4, 4]
    [⟨4, MemType.cpu⟩, ⟨2, MemType.gpu⟩, ⟨4, MemType.cpu⟩] 1 4
    ⟨2, MemType.gpu⟩ (by decide) (by decide) (by decide)

end DynBatch
